import Mathlib

/-!
Verification of the L2HMC sampler repository (`l2hmc-qcd`) against its
natural-language specification, via a shallow embedding of the relevant
Python sources in Lean 4.

Embedded sources:
* `l2hmc-qcd/models/gmm_model.py` — `GaussianMixtureModel._check_reversibility`,
  `_create_metric_fn`, the auxiliary-trajectory guard in `build`.
* `src/l2hmc/trainers/pytorch/trainer.py` — `Trainer.train_step`.
* `l2hmc-qcd/runners/runner.py` — `GaugeModelRunner.run_step` sample hand-off
  and the `run` loop with its interrupt handler.
* `l2hmc-qcd/utils/annealing_schedules.py` — `exp_mult_cooling`, `get_betas`
  (the same formula appears in `l2hmc-qcd/utils/training_utils.py`).
* `l2hmc-qcd/utils/file_io.py` — `save_data`, `change_extension`, `savez`.

Parts of the repository that the claims touch but whose code is not among
the embedded sources (the `Dynamics` integrator internals, `gauge_model.allclose`,
the loss summation in `base_model._calc_loss`, `to_u1`) are modelled from the
specification; each such definition carries a doc comment starting with
`Modelled from the spec:`.

Machine floating point is modelled by exact rationals/reals, except where a
claim is specifically about non-finite values, for which the `F64` type below
carries explicit `inf`/`nan` elements.
-/

namespace L2HMC

/-! ## Shared numeric helpers -/

/-- Embeds `np.mod(x, m)` for real arguments (used with `m = 2*pi` in
`GaugeModelRunner.run_step`): `np.mod` returns `x - m * floor(x / m)`,
which for `m > 0` lies in `[0, m)`. -/
noncomputable def npMod (x m : ℝ) : ℝ := x - m * ⌊x / m⌋

/-- Modelled from the spec: `to_u1` (from `l2hmc.dynamics.pytorch.dynamics`,
not among the embedded sources) wraps an angle periodically into `[-pi, pi)`;
it is `((x + pi) mod 2*pi) - pi`. -/
noncomputable def to_u1 (x : ℝ) : ℝ := npMod (x + Real.pi) (2 * Real.pi) - Real.pi

/-! ## Reversibility checker (claims C1, C2)

`GaussianMixtureModel._check_reversibility` (gmm_model.py, lines 246-266)
draws random `x_in`, `v_in`, calls `self.dynamics._check_reversibility`,
reads `xb` and `vb` out of the returned record and returns the pair
`(allclose(x_in, xb), allclose(v_in, vb))`.  Configurations are vectors of
rationals here; an integrator step is any function from `(x, v)` to
`(x, v, logdet)`. -/

/-- Result record of the dynamics-level reversibility check: forward result,
backward result, and the two log-Jacobians. -/
structure DynamicsCheck where
  xf : List ℚ
  vf : List ℚ
  xb : List ℚ
  vb : List ℚ
  logdet_f : ℚ
  logdet_b : ℚ
deriving DecidableEq

/-- Modelled from the spec: `gauge_model.allclose` (gauge_model.py is not among
the embedded sources) — elementwise comparison within tolerance, true when the
two vectors have the same shape and every coordinate pair is within `tol`. -/
def allclose (tol : ℚ) (a b : List ℚ) : Bool :=
  a.length == b.length &&
    (List.zipWith (fun p q => decide (|p - q| < tol)) a b).all id

/-- Modelled from the spec: `Dynamics._check_reversibility`
(dynamics/dynamics.py is not among the embedded sources) runs the forward
integrator step on `(x, v)` giving `(x_f, v_f, logdet_f)`, then the backward
integrator step on `(x_f, v_f)` giving `(x_b, v_b, logdet_b)`, and returns
the record of results. -/
def dynamics_check (fwd bwd : List ℚ × List ℚ → List ℚ × List ℚ × ℚ)
    (x v : List ℚ) : DynamicsCheck :=
  let f := fwd (x, v)
  let b := bwd (f.1, f.2.1)
  ⟨f.1, f.2.1, b.1, b.2.1, f.2.2, b.2.2⟩

/-- Embeds `GaussianMixtureModel._check_reversibility` (gmm_model.py,
lines 246-266): obtains `xb`, `vb` from the dynamics-level check of the drawn
`(x_in, v_in)` and returns `(allclose(x_in, xb), allclose(v_in, vb))` — a pair
of booleans, one per check, with no exception path. -/
def check_reversibility (tol : ℚ)
    (fwd bwd : List ℚ × List ℚ → List ℚ × List ℚ × ℚ)
    (x_in v_in : List ℚ) : Bool × Bool :=
  let dc := dynamics_check fwd bwd x_in v_in
  (allclose tol x_in dc.xb, allclose tol v_in dc.vb)

/-- A concrete integrator step: the identity map on states, reporting
log-Jacobian `50`. -/
def idStep50 : List ℚ × List ℚ → List ℚ × List ℚ × ℚ :=
  fun s => (s.1, s.2, 50)

/-- A concrete integrator step: the identity map on states, reporting
log-Jacobian `0`. -/
def idStep0 : List ℚ × List ℚ → List ℚ × List ℚ × ℚ :=
  fun s => (s.1, s.2, 0)

/-! ## Metropolis-Hastings acceptance probability (claim C3) -/

/-- Modelled from the spec: the acceptance stage of `dynamics/dynamics.py`
(not among the embedded sources) computes
`p_accept = min(1, exp(H_init - H_prop + logdet))`, clipped to `[0, 1]`
for numerical safety. -/
noncomputable def compute_accept_prob (H_init H_prop logdet : ℝ) : ℝ :=
  max 0 (min 1 (Real.exp (H_init - H_prop + logdet)))

/-! ## Training-step parameter update (claim C4)

`Trainer.train_step` (src/l2hmc/trainers/pytorch/trainer.py, lines 250-277)
ends with `self.optimizer.zero_grad(); self.accelerator.backward(loss);
self.optimizer.step()` executed unconditionally — the code contains no check
on the finiteness of the loss or of the gradients.  Machine numbers are
modelled by `F64`: exact rationals plus the IEEE non-finite values. -/

/-- Machine double model: a finite value (exact rational), the two infinities,
or NaN. -/
inductive F64 where
  | fin : ℚ → F64
  | inf : F64
  | ninf : F64
  | nan : F64
deriving DecidableEq

/-- A machine double is finite when it is neither infinite nor NaN. -/
def F64.isFinite : F64 → Bool
  | .fin _ => true
  | _ => false

/-- IEEE-style multiplication on the `F64` model (finite arithmetic is exact:
overflow to infinity is not modelled, which only widens the set of finite
results). -/
def fmul : F64 → F64 → F64
  | .nan, _ => .nan
  | _, .nan => .nan
  | .fin a, .fin b => .fin (a * b)
  | .fin a, .inf => if a = 0 then .nan else if 0 < a then .inf else .ninf
  | .fin a, .ninf => if a = 0 then .nan else if 0 < a then .ninf else .inf
  | .inf, .fin b => if b = 0 then .nan else if 0 < b then .inf else .ninf
  | .ninf, .fin b => if b = 0 then .nan else if 0 < b then .ninf else .inf
  | .inf, .inf => .inf
  | .inf, .ninf => .ninf
  | .ninf, .inf => .ninf
  | .ninf, .ninf => .inf

/-- IEEE-style subtraction on the `F64` model. -/
def fsub : F64 → F64 → F64
  | .nan, _ => .nan
  | _, .nan => .nan
  | .fin a, .fin b => .fin (a - b)
  | .fin _, .inf => .ninf
  | .fin _, .ninf => .inf
  | .inf, .fin _ => .inf
  | .ninf, .fin _ => .ninf
  | .inf, .inf => .nan
  | .inf, .ninf => .inf
  | .ninf, .inf => .ninf
  | .ninf, .ninf => .nan

/-- Backpropagation through a non-finite loss yields non-finite (NaN)
gradients; through a finite loss it yields the analytic gradient
`g_analytic`.  This models `accelerator.backward(loss)`. -/
def backward_grad (loss g_analytic : F64) : F64 :=
  match loss with
  | .fin _ => g_analytic
  | _ => .nan

/-- Embeds the parameter-update tail of `Trainer.train_step`
(src/l2hmc/trainers/pytorch/trainer.py, lines 267-270):
`zero_grad(); backward(loss); optimizer.step()` runs unconditionally, with
the optimizer step modelled as one SGD update `theta - lr * grad` on a
single scalar parameter. -/
def train_step_param_update (theta lr loss g_analytic : F64) : F64 :=
  fsub theta (fmul lr (backward_grad loss g_analytic))

/-! ## Auxiliary trajectory in the training step (claim C6)

`Trainer.train_step` (src/l2hmc/trainers/pytorch/trainer.py, lines 250-277):
the main trajectory runs on `to_u1(x_init)`; iff `self.aux_weight > 0` a
second trajectory runs on `to_u1(draw_x())` — fresh noise, a separate input
here — and the loss becomes `(loss + aux_weight * aux_loss)/(1 + aux_weight)`
with `aux_loss = aux_weight * loss_fn(...)` folded in as in the source. -/

/-- Output of one `dynamics` call: the next state, the proposed state and the
acceptance probability (the parts of `metrics` the training step consumes). -/
structure DynOut where
  x_out : List ℝ
  x_proposed : List ℝ
  acc : ℝ

/-- Output of the embedded training step: the returned state, the loss, and
the list of initial states on which full trajectories were run. -/
structure TrainStepOut where
  x_out : List ℝ
  loss : ℝ
  traj_inits : List (List ℝ)

/-- Embeds the trajectory/loss portion of `Trainer.train_step`
(src/l2hmc/trainers/pytorch/trainer.py, lines 250-277).  `dynamics` and
`loss_fn` are the abstract collaborators; `noise` stands for the fresh
`random_angle` draw used by `draw_x`. -/
noncomputable def train_step_loss (dynamics : List ℝ × ℝ → DynOut)
    (loss_fn : List ℝ → List ℝ → ℝ → ℝ)
    (aux_weight : ℝ) (x_init noise : List ℝ) (beta : ℝ) : TrainStepOut :=
  let d := dynamics (x_init.map to_u1, beta)
  let loss := loss_fn x_init (d.x_proposed.map to_u1) d.acc
  if 0 < aux_weight then
    let yinit := noise.map to_u1
    let da := dynamics (yinit, beta)
    let aux_loss := aux_weight * loss_fn yinit (da.x_proposed.map to_u1) da.acc
    ⟨d.x_out.map to_u1, (loss + aux_loss) / (1 + aux_weight),
      [x_init.map to_u1, yinit]⟩
  else
    ⟨d.x_out.map to_u1, loss, [x_init.map to_u1]⟩

/-- A concrete dynamics collaborator: returns the input state unchanged with
acceptance probability 1. -/
def dyn0 : List ℝ × ℝ → DynOut :=
  fun p => ⟨p.1, p.1, 1⟩

/-- A concrete loss collaborator: constantly 0. -/
def lossFn0 : List ℝ → List ℝ → ℝ → ℝ :=
  fun _ _ _ => 0

/-! ## Metric function and squared jump distance (claim C7) -/

/-- Embeds `GaussianMixtureModel._create_metric_fn` (gmm_model.py, lines
331-337): `metric_fn(x1, x2) = tf.square(x1 - x2)`, the elementwise squared
difference. -/
noncomputable def metric_fn (x1 x2 : List ℝ) : List ℝ :=
  List.zipWith (fun a b => (a - b) ^ 2) x1 x2

/-- Modelled from the spec: the loss (`base_model._calc_loss`, not among the
embedded sources) sums the metric over the configuration dimensions to form
the squared jump distance. -/
noncomputable def loss_jump_distance (x1 x2 : List ℝ) : ℝ :=
  (metric_fn x1 x2).sum

/-- Modelled from the spec: for angle-valued (gauge) configurations the metric
applies angular wraparound to each elementwise difference before squaring
(the gauge-model metric is not among the embedded sources). -/
noncomputable def angular_metric_fn (x1 x2 : List ℝ) : List ℝ :=
  List.zipWith (fun a b => to_u1 (a - b) ^ 2) x1 x2

/-- Modelled from the spec: summed angular squared jump distance. -/
noncomputable def angular_jump_distance (x1 x2 : List ℝ) : ℝ :=
  (angular_metric_fn x1 x2).sum

/-- The spec wording of the default squared jump distance, written
independently of the source embedding: the sum over coordinates of the
squared differences. -/
noncomputable def spec_jump_distance (x1 x2 : List ℝ) : ℝ :=
  ∑ i ∈ Finset.range (min x1.length x2.length),
    (x1.getD i 0 - x2.getD i 0) ^ 2

/-! ## Gauge-runner sample hand-off (claim C5) -/

/-- Embeds the sample hand-off of `GaugeModelRunner.run_step` (runner.py,
lines 216-229): the configuration placed in `out_data` and reused as the next
step input is `np.mod(outputs[0], 2 * np.pi)`, applied coordinatewise. -/
noncomputable def run_step_samples (x_out : List ℝ) : List ℝ :=
  x_out.map (fun a => npMod a (2 * Real.pi))

/-! ## Run loop and interrupt handling (claim C8)

`GaugeModelRunner.run` (runner.py, lines 300-319) wraps the whole step loop in
one `try`; each iteration runs `run_step` (a single atomic `sess.run` of the
full trajectory) and then `logger.update` records that step; on
`KeyboardInterrupt`/`SystemExit` the handler — at loop level, after the stack
has unwound out of the aborted step — calls `logger.save_run_data`.  The
embedding produces the event trace of one run: an interrupt delivered during
step `k` aborts that step before its data is recorded. -/

/-- Events of one `GaugeModelRunner.run` execution: a fully completed step
(whose data the logger recorded), a step aborted mid-execution by an
interrupt, and a `save_run_data` call carrying the recorded step indices. -/
inductive RunEvent where
  | step_run : ℕ → RunEvent
  | step_abort : ℕ → RunEvent
  | save_run_data : List ℕ → RunEvent
deriving DecidableEq

/-- The `try ... for step in range(run_steps) ... except` body of
`GaugeModelRunner.run`: walk the remaining step indices, recording each
completed step when a logger is present; an interrupt during step `k` aborts
it and falls to the handler, which saves the data recorded so far; normal
exit also saves.  Saving happens only when a logger is present, as in the
source. -/
def run_loop (logger_present : Bool) (interrupt_at : Option ℕ) :
    List ℕ → List ℕ → List RunEvent
  | [], recorded =>
    cond logger_present [RunEvent.save_run_data recorded] []
  | i :: rest, recorded =>
    if interrupt_at = some i then
      RunEvent.step_abort i ::
        cond logger_present [RunEvent.save_run_data recorded] []
    else
      RunEvent.step_run i ::
        run_loop logger_present interrupt_at rest
          (cond logger_present (recorded ++ [i]) recorded)

/-- Embeds `GaugeModelRunner.run` (runner.py, lines 300-319) as the event
trace over `run_steps` steps with an optional interrupt during step
`interrupt_at`. -/
def run_events (run_steps : ℕ) (interrupt_at : Option ℕ)
    (logger_present : Bool) : List RunEvent :=
  run_loop logger_present interrupt_at (List.range run_steps) []

/-! ## Annealing schedule (claim C9) -/

/-- Embeds `exp_mult_cooling` (annealing_schedules.py, lines 17-30; the same
formula appears in training_utils.py, lines 81-91) with the default
`alpha = exp((log t1 - log t0) / num_steps)`:
the temperature after `step` steps is `t0 * alpha ^ step`. -/
noncomputable def exp_mult_cooling (step : ℕ) (t0 t1 : ℝ) (num_steps : ℕ) : ℝ :=
  t0 * Real.exp ((Real.log t1 - Real.log t0) / num_steps) ^ step

/-- Embeds `get_betas` (annealing_schedules.py, lines 67-88, with the default
`cooling_fn = exp_mult_cooling` and `discrete = False`; identically
training_utils.py, lines 93-101): inverse temperatures
`1 / exp_mult_cooling(i, 1/beta_init, 1/beta_final, steps)` for
`i = 0 .. steps-1`. -/
noncomputable def get_betas (steps : ℕ) (beta_init beta_final : ℝ) : List ℝ :=
  (List.range steps).map
    (fun i => 1 / exp_mult_cooling i (1 / beta_init) (1 / beta_final) steps)

/-! ## save_data path handling (claim C10)

Paths are lists of characters; `splitOnChar` is Python `str.split` with a
one-character separator. -/

/-- Python `s.split(c)` for a single-character separator: splits at every
occurrence, keeping empty components. -/
def splitOnChar (c : Char) : List Char → List (List Char)
  | [] => [[]]
  | a :: rest =>
    match splitOnChar c rest with
    | [] => [[]]
    | s :: ss => if a = c then [] :: s :: ss else (a :: s) :: ss

/-- Python `os.path.join(a, b)` for two components: `b` if it is absolute or
`a` is empty, otherwise `a` and `b` joined with a slash. -/
def os_path_join (a b : List Char) : List Char :=
  if b.head? = some '/' then b
  else if a = [] then b
  else if a.getLast? = some '/' then a ++ b
  else a ++ '/' :: b

/-- Embeds `savez` (file_io.py, lines 103-111): the written path gains a `.z`
suffix unless it already ends in `.z`. -/
def savez_path (fpath : List Char) : List Char :=
  if ['.', 'z'].isSuffixOf fpath then fpath else fpath ++ ['.', 'z']

/-- Embeds the `np.save` target path: `np.save` appends `.npy` unless the
path already ends in `.npy`. -/
def np_save_path (fpath : List Char) : List Char :=
  if ['.', 'n', 'p', 'y'].isSuffixOf fpath then fpath
  else fpath ++ ['.', 'n', 'p', 'y']

/-- Embeds `change_extension` (file_io.py, lines 114-121): split the path on
slashes, split the basename on dots — the Python unpacking
`fname, _ = out_file.split('.')` demands exactly two components, anything
else raises `ValueError` (`none` here) — and rejoin with the new extension. -/
def change_extension (fpath ext : List Char) : Option (List Char) :=
  let tmp := splitOnChar '/' fpath
  match tmp.getLast? with
  | none => none
  | some out_file =>
    match splitOnChar '.' out_file with
    | [fname, _] =>
      some (os_path_join (List.intercalate ['/'] tmp.dropLast)
        (fname ++ '.' :: ext))
    | _ => none

/-- Embeds `save_data` (file_io.py, lines 571-586) as the path the data is
written to.  When `out_file` names an existing file the code rebinds
`out_file` to `split('.')[0] + '_1' + '.' + split('.')[1]` (an `IndexError`
— `none` — when the path has no dot).  Then: a `.pkl` path goes through
`change_extension(..., 'z')` and `savez`; a `.npy` path through `np.save`;
anything else through `savez`. -/
def save_data_target (out_file : List Char) (file_exists : Bool) :
    Option (List Char) :=
  let renamed : Option (List Char) :=
    if file_exists then
      match splitOnChar '.' out_file with
      | t0 :: t1 :: _ => some (t0 ++ '_' :: '1' :: '.' :: t1)
      | _ => none
    else some out_file
  match renamed with
  | none => none
  | some f =>
    if ['.', 'p', 'k', 'l'].isSuffixOf f then
      (change_extension f ['z']).map savez_path
    else if ['.', 'n', 'p', 'y'].isSuffixOf f then
      some (np_save_path f)
    else
      some (savez_path f)

/-! ## Theorems -/

/-- C1: for every drawn `(x, v)` the reversibility checker runs the forward
integrator step on `(x, v)`, then the backward integrator step on the forward
result, and returns one boolean per check — the `allclose` comparison of the
recovered `x` against the input `x` and of the recovered `v` against the
input `v` — as a total function, never an exception. -/
theorem check_reversibility_forward_backward_bools
    (fwd bwd : List ℚ × List ℚ → List ℚ × List ℚ × ℚ) (tol : ℚ)
    (x v : List ℚ) :
    check_reversibility tol fwd bwd x v =
      (allclose tol x (bwd ((fwd (x, v)).1, (fwd (x, v)).2.1)).1,
       allclose tol v (bwd ((fwd (x, v)).1, (fwd (x, v)).2.1)).2.1) := rfl

/-- C2 counterexample: with the identity integrator reporting log-Jacobian 50
in both directions, the checker reports `(true, true)` on a concrete state
even though `logdet_f + logdet_b = 100` is nowhere near zero — so the checker
makes no logdet-cancellation assertion. -/
theorem check_reversibility_no_logdet_check_cx :
    check_reversibility (1 / 100000) idStep50 idStep50 [0] [0] = (true, true) ∧
    ¬ |(dynamics_check idStep50 idStep50 [0] [0]).logdet_f +
        (dynamics_check idStep50 idStep50 [0] [0]).logdet_b| < 1 / 100000 := by
  constructor
  · norm_num [check_reversibility, dynamics_check, allclose, idStep50]
  · norm_num [dynamics_check, idStep50]

/-- C2 (amended): the reversibility checker checks only that the recovered
state matches the input — its result is unchanged under any modification of
the log-Jacobians reported by the integrator steps, so no
`logdet_f + logdet_b` assertion is made. -/
theorem check_reversibility_depends_only_on_states
    (fwd bwd fwd2 bwd2 : List ℚ × List ℚ → List ℚ × List ℚ × ℚ)
    (tol : ℚ) (x v : List ℚ)
    (hf : ∀ s, (fwd s).1 = (fwd2 s).1 ∧ (fwd s).2.1 = (fwd2 s).2.1)
    (hb : ∀ s, (bwd s).1 = (bwd2 s).1 ∧ (bwd s).2.1 = (bwd2 s).2.1) :
    check_reversibility tol fwd bwd x v =
      check_reversibility tol fwd2 bwd2 x v := by
  simp only [check_reversibility, dynamics_check]
  rw [(hf (x, v)).1, (hf (x, v)).2,
    (hb ((fwd2 (x, v)).1, (fwd2 (x, v)).2.1)).1,
    (hb ((fwd2 (x, v)).1, (fwd2 (x, v)).2.1)).2]

/-- Witness for the amended C2 theorem at concrete integrators differing only
in their reported log-Jacobians. -/
theorem check_reversibility_depends_only_on_states_witness :
    check_reversibility 1 idStep50 idStep50 [0] [0] =
      check_reversibility 1 idStep0 idStep0 [0] [0] :=
  check_reversibility_depends_only_on_states idStep50 idStep50 idStep0 idStep0
    1 [0] [0] (fun _ => ⟨rfl, rfl⟩) (fun _ => ⟨rfl, rfl⟩)

/-- C3: for every input to the acceptance stage — arbitrarily large energy
differences included — the acceptance probability lies in `[0, 1]`, and a
nonnegative exponent saturates the probability to exactly 1. -/
theorem accept_prob_mem_unit_interval (H_init H_prop logdet : ℝ) :
    0 ≤ compute_accept_prob H_init H_prop logdet ∧
    compute_accept_prob H_init H_prop logdet ≤ 1 ∧
    (0 ≤ H_init - H_prop + logdet →
      compute_accept_prob H_init H_prop logdet = 1) := by
  unfold compute_accept_prob
  refine ⟨le_max_left _ _, max_le (by norm_num) (min_le_left _ _), fun h => ?_⟩
  have h1 : (1 : ℝ) ≤ Real.exp (H_init - H_prop + logdet) := by
    rw [← Real.exp_zero]
    exact Real.exp_le_exp.mpr h
  rw [min_eq_left h1]
  norm_num

/-- Witness for the C3 theorem: a favourable energy difference gives
acceptance probability exactly 1. -/
theorem accept_prob_mem_unit_interval_witness :
    compute_accept_prob 1 0 0 = 1 :=
  (accept_prob_mem_unit_interval 1 0 0).2.2 (by norm_num)

/-- C4 counterexample: `Trainer.train_step` applies the optimizer update
unconditionally — for a NaN loss on a concrete finite parameter the updated
parameter differs from the original, so the update is not skipped. -/
theorem train_step_nonfinite_update_cx :
    F64.isFinite F64.nan = false ∧
    train_step_param_update (F64.fin 1) (F64.fin 1) F64.nan (F64.fin 0) ≠
      F64.fin 1 := by
  decide

/-- C4 (amended): when the loss is non-finite the training step still runs
`backward` and `optimizer.step`, and the non-finite value propagates into the
parameters — they become NaN, so any finite parameter is corrupted rather
than left unchanged. -/
theorem train_step_nonfinite_loss_corrupts_params
    (theta lr g_analytic loss : F64) (h : loss.isFinite = false) :
    train_step_param_update theta lr loss g_analytic = F64.nan ∧
    (theta.isFinite = true →
      train_step_param_update theta lr loss g_analytic ≠ theta) := by
  have hnan : backward_grad loss g_analytic = F64.nan := by
    cases loss <;> simp [backward_grad, F64.isFinite] at h ⊢
  have hmul : fmul lr F64.nan = F64.nan := by cases lr <;> rfl
  have hsub : fsub theta F64.nan = F64.nan := by cases theta <;> rfl
  have h1 : train_step_param_update theta lr loss g_analytic = F64.nan := by
    simp [train_step_param_update, hnan, hmul, hsub]
  refine ⟨h1, fun ht => ?_⟩
  rw [h1]
  cases theta with
  | fin q => simp
  | inf => simp [F64.isFinite] at ht
  | ninf => simp [F64.isFinite] at ht
  | nan => simp [F64.isFinite] at ht

/-- Witness for the amended C4 theorem at a concrete finite parameter and an
infinite loss. -/
theorem train_step_nonfinite_loss_corrupts_params_witness :
    train_step_param_update (F64.fin 2) (F64.fin 1) F64.inf (F64.fin 3) =
      F64.nan :=
  (train_step_nonfinite_loss_corrupts_params (F64.fin 2) (F64.fin 1)
    (F64.fin 3) F64.inf (by decide)).1

/-- C6: when `aux_weight > 0` the training step runs exactly two full
trajectories — the main one on the training batch and an auxiliary one whose
initial state comes from the noise draw alone (it is the same whatever the
training batch is) — and combines the two losses with weight `aux_weight`;
when `aux_weight ≤ 0` only the main trajectory runs and the loss is the main
loss. -/
theorem train_step_aux_trajectory (d : List ℝ × ℝ → DynOut)
    (f : List ℝ → List ℝ → ℝ → ℝ) (w : ℝ) (x x2 n : List ℝ) (beta : ℝ) :
    (0 < w →
      (train_step_loss d f w x n beta).traj_inits =
        [x.map to_u1, n.map to_u1] ∧
      (train_step_loss d f w x n beta).loss =
        (f x ((d (x.map to_u1, beta)).x_proposed.map to_u1)
            (d (x.map to_u1, beta)).acc +
          w * f (n.map to_u1)
            ((d (n.map to_u1, beta)).x_proposed.map to_u1)
            (d (n.map to_u1, beta)).acc) / (1 + w) ∧
      (train_step_loss d f w x n beta).traj_inits.getD 1 [] =
        (train_step_loss d f w x2 n beta).traj_inits.getD 1 []) ∧
    (w ≤ 0 →
      (train_step_loss d f w x n beta).traj_inits = [x.map to_u1] ∧
      (train_step_loss d f w x n beta).loss =
        f x ((d (x.map to_u1, beta)).x_proposed.map to_u1)
          (d (x.map to_u1, beta)).acc) := by
  constructor
  · intro h
    simp [train_step_loss, if_pos h]
  · intro h
    simp [train_step_loss, if_neg (not_lt.mpr h)]

/-- Witness for the C6 theorem at concrete collaborators with
`aux_weight = 1`: both the batch trajectory and the noise trajectory run. -/
theorem train_step_aux_trajectory_witness :
    (train_step_loss dyn0 lossFn0 1 [] [] 1).traj_inits =
      [List.map to_u1 [], List.map to_u1 []] :=
  ((train_step_aux_trajectory dyn0 lossFn0 1 [] [] [] 1).1 (by norm_num)).1

/-- Helper: `np.mod(x, m)` lies in `[0, m)` for positive modulus. -/
theorem npMod_nonneg_lt (x m : ℝ) (hm : 0 < m) :
    0 ≤ npMod x m ∧ npMod x m < m := by
  have hm0 : m ≠ 0 := ne_of_gt hm
  have h : npMod x m = m * Int.fract (x / m) := by
    simp only [npMod, Int.fract]
    field_simp
  refine ⟨?_, ?_⟩
  · rw [h]
    exact mul_nonneg hm.le (Int.fract_nonneg _)
  · rw [h]
    calc m * Int.fract (x / m) < m * 1 :=
          mul_lt_mul_of_pos_left (Int.fract_lt_one _) hm
    _ = m := mul_one m

/-- C5 counterexample: a raw output coordinate `3*pi/2` is handed to the next
step unchanged by the runner's `np.mod(x, 2*pi)` wrap, and `3*pi/2` does not
lie in `[-pi, pi)` — the hand-off range is not `[-pi, pi)`. -/
theorem run_step_samples_not_in_neg_pi_pi_cx :
    run_step_samples [3 * Real.pi / 2] = [3 * Real.pi / 2] ∧
    ¬ 3 * Real.pi / 2 < Real.pi := by
  have hpi := Real.pi_pos
  have hpne : Real.pi ≠ 0 := Real.pi_ne_zero
  constructor
  · have hq : 3 * Real.pi / 2 / (2 * Real.pi) = 3 / 4 := by
      field_simp
      ring
    have hfloor : ⌊3 * Real.pi / 2 / (2 * Real.pi)⌋ = 0 := by
      rw [hq, Int.floor_eq_zero_iff, Set.mem_Ico]
      constructor <;> norm_num
    simp [run_step_samples, npMod, hfloor]
  · intro h
    linarith

/-- C5 (amended): the configuration handed from one sampling step to the next
by `GaugeModelRunner.run_step` is periodically wrapped into `[0, 2*pi)` — by
`np.mod(x, 2*pi)` — in every coordinate (the PyTorch trainer instead wraps
with `to_u1` into `[-pi, pi)`). -/
theorem run_step_samples_mem_Ico_zero_two_pi (x_out : List ℝ) (a : ℝ)
    (ha : a ∈ run_step_samples x_out) : 0 ≤ a ∧ a < 2 * Real.pi := by
  simp only [run_step_samples, List.mem_map] at ha
  obtain ⟨b, _, rfl⟩ := ha
  exact npMod_nonneg_lt b (2 * Real.pi) (by positivity)

/-- Witness for the amended C5 theorem at the concrete configuration `[0]`. -/
theorem run_step_samples_mem_Ico_zero_two_pi_witness :
    0 ≤ npMod 0 (2 * Real.pi) ∧ npMod 0 (2 * Real.pi) < 2 * Real.pi :=
  run_step_samples_mem_Ico_zero_two_pi [0] (npMod 0 (2 * Real.pi))
    (List.mem_map_of_mem _ (List.mem_singleton.mpr rfl))

/-- Helper: the sum of an elementwise combination equals the indexed sum over
the common length. -/
theorem zipWith_sum_eq (g : ℝ → ℝ → ℝ) :
    ∀ x1 x2 : List ℝ, (List.zipWith g x1 x2).sum =
      ∑ i ∈ Finset.range (min x1.length x2.length),
        g (x1.getD i 0) (x2.getD i 0)
  | [], x2 => by simp
  | a :: x1, [] => by simp
  | a :: x1, b :: x2 => by
    rw [List.zipWith_cons_cons, List.sum_cons, zipWith_sum_eq g x1 x2,
      List.length_cons, List.length_cons, Nat.succ_min_succ,
      Finset.sum_range_succ']
    simp only [List.getD_cons_succ, List.getD_cons_zero]
    exact (add_comm _ _)

/-- C7: the squared jump distance used by the loss — the summed default
`metric_fn` — is exactly the sum over configuration dimensions of the
elementwise squared differences, and the angle-valued variant sums the
squares of the differences wrapped into `[-pi, pi)`. -/
theorem jump_distance_eq_sum_squares (x1 x2 : List ℝ) :
    loss_jump_distance x1 x2 = spec_jump_distance x1 x2 ∧
    angular_jump_distance x1 x2 =
      ∑ i ∈ Finset.range (min x1.length x2.length),
        to_u1 (x1.getD i 0 - x2.getD i 0) ^ 2 ∧
    ∀ a b : ℝ, -Real.pi ≤ to_u1 (a - b) ∧ to_u1 (a - b) < Real.pi := by
  refine ⟨zipWith_sum_eq _ x1 x2, zipWith_sum_eq _ x1 x2, fun a b => ?_⟩
  have h := npMod_nonneg_lt (a - b + Real.pi) (2 * Real.pi) (by positivity)
  unfold to_u1
  constructor
  · linarith [h.1]
  · linarith [h.2]

/-- Helper: the `i`-th element of the annealing schedule. -/
theorem get_betas_getD (steps : ℕ) (b0 b1 : ℝ) (i : ℕ) (hi : i < steps) :
    (get_betas steps b0 b1).getD i 0 =
      1 / exp_mult_cooling i (1 / b0) (1 / b1) steps := by
  unfold get_betas
  rw [List.getD_eq_getElem?_getD, List.getElem?_map, List.getElem?_range hi]
  rfl

/-- C9: for `steps ≥ 1` and `0 < beta_init < beta_final`, the default
annealing schedule (exponential-multiplicative cooling, no custom alpha) has
length `steps`, starts exactly at `beta_init`, and is monotonically
nondecreasing. -/
theorem get_betas_length_head_monotone (steps : ℕ) (b0 b1 : ℝ)
    (hsteps : 1 ≤ steps) (hb0 : 0 < b0) (hb : b0 < b1) :
    (get_betas steps b0 b1).length = steps ∧
    (get_betas steps b0 b1).getD 0 0 = b0 ∧
    ∀ i j, i ≤ j → j < steps →
      (get_betas steps b0 b1).getD i 0 ≤ (get_betas steps b0 b1).getD j 0 := by
  have hb1 : (0 : ℝ) < b1 := lt_trans hb0 hb
  have ht0 : (0 : ℝ) < 1 / b0 := by positivity
  have hexp0 : (0 : ℝ) ≤
      Real.exp ((Real.log (1 / b1) - Real.log (1 / b0)) / (steps : ℝ)) :=
    (Real.exp_pos _).le
  have hlog : Real.log (1 / b1) ≤ Real.log (1 / b0) := by
    have h1b : 1 / b1 ≤ 1 / b0 := one_div_le_one_div_of_le hb0 hb.le
    exact Real.log_le_log (by positivity) h1b
  have hc : (Real.log (1 / b1) - Real.log (1 / b0)) / (steps : ℝ) ≤ 0 :=
    div_nonpos_of_nonpos_of_nonneg (sub_nonpos.mpr hlog) (Nat.cast_nonneg _)
  have ha1 : Real.exp ((Real.log (1 / b1) - Real.log (1 / b0)) / (steps : ℝ)) ≤ 1 :=
    Real.exp_le_one_iff.mpr hc
  refine ⟨by simp [get_betas], ?_, ?_⟩
  · rw [get_betas_getD steps b0 b1 0 (by omega)]
    unfold exp_mult_cooling
    rw [pow_zero, mul_one, one_div_one_div]
  · intro i j hij hj
    rw [get_betas_getD steps b0 b1 i (lt_of_le_of_lt hij hj),
      get_betas_getD steps b0 b1 j hj]
    unfold exp_mult_cooling
    apply one_div_le_one_div_of_le
    · exact mul_pos ht0 (pow_pos (Real.exp_pos _) j)
    · exact mul_le_mul_of_nonneg_left
        (pow_le_pow_of_le_one hexp0 ha1 hij) ht0.le

/-- Witness for the C9 theorem at `steps = 2`, `beta_init = 1`,
`beta_final = 2`. -/
theorem get_betas_length_head_monotone_witness :
    (get_betas 2 1 2).length = 2 ∧
    (get_betas 2 1 2).getD 0 0 = 1 ∧
    ∀ i j, i ≤ j → j < 2 →
      (get_betas 2 1 2).getD i 0 ≤ (get_betas 2 1 2).getD j 0 :=
  get_betas_length_head_monotone 2 1 2 (by norm_num) (by norm_num) (by norm_num)

/-- Helper: an uninterrupted run loop completes every remaining step and then
saves once, with the data of all recorded steps. -/
theorem run_loop_no_interrupt :
    ∀ (l recorded : List ℕ), run_loop true none l recorded =
      l.map RunEvent.step_run ++ [RunEvent.save_run_data (recorded ++ l)]
  | [], recorded => by simp [run_loop]
  | i :: rest, recorded => by
    show RunEvent.step_run i :: run_loop true none rest (recorded ++ [i]) = _
    rw [run_loop_no_interrupt rest (recorded ++ [i])]
    simp

/-- Helper: a run loop interrupted during step `k` completes the steps before
`k`, aborts step `k` without recording it, and then — after the abort, at
loop level — saves once with the data of the completed steps only. -/
theorem run_loop_interrupt :
    ∀ (l1 : List ℕ) (l2 recorded : List ℕ) (k : ℕ), k ∉ l1 →
      run_loop true (some k) (l1 ++ k :: l2) recorded =
        l1.map RunEvent.step_run ++
          [RunEvent.step_abort k, RunEvent.save_run_data (recorded ++ l1)]
  | [], l2, recorded, k, _ => by
    simp only [List.nil_append, run_loop, if_pos rfl]
    simp
  | a :: l1, l2, recorded, k, h => by
    have hka : ¬ (some k = some a) := by
      simp only [Option.some.injEq]
      exact fun hh => h (hh ▸ List.mem_cons_self a l1)
    have h1 : k ∉ l1 := fun hh => h (List.mem_cons_of_mem a hh)
    simp only [List.cons_append, run_loop, if_neg hka]
    show RunEvent.step_run a ::
      run_loop true (some k) (l1 ++ k :: l2) (recorded ++ [a]) = _
    rw [run_loop_interrupt l1 l2 (recorded ++ [a]) k h1]
    simp

/-- C8: an interrupt against the run loop is handled at a trajectory
boundary: the interrupted step is aborted first and contributes no data, the
save triggered by the interrupt happens exactly once, after the abort —
never from inside an in-progress step — and it saves precisely the data of
all completed steps; an uninterrupted run saves all steps at the end. -/
theorem run_saves_only_at_trajectory_boundary (n k : ℕ) (hk : k < n) :
    run_events n (some k) true =
      (List.range k).map RunEvent.step_run ++
        [RunEvent.step_abort k, RunEvent.save_run_data (List.range k)] ∧
    run_events n none true =
      (List.range n).map RunEvent.step_run ++
        [RunEvent.save_run_data (List.range n)] := by
  constructor
  · unfold run_events
    obtain ⟨m, hm⟩ : ∃ m, n - k = m + 1 := ⟨n - k - 1, by omega⟩
    have h3 := List.range'_append_1 0 k (m + 1)
    rw [Nat.zero_add, show m + 1 + k = n from by omega] at h3
    have hsplit : List.range n =
        List.range k ++ k :: List.range' (k + 1) (n - k - 1) := by
      rw [List.range_eq_range', ← h3, List.range'_succ, ← List.range_eq_range',
        show m = n - k - 1 from by omega]
    rw [hsplit, run_loop_interrupt _ _ _ _ (by simp [List.mem_range])]
    simp
  · unfold run_events
    rw [run_loop_no_interrupt]
    simp

/-- Witness for the C8 theorem: a 3-step run interrupted during step 1. -/
theorem run_saves_only_at_trajectory_boundary_witness :
    run_events 3 (some 1) true =
      (List.range 1).map RunEvent.step_run ++
        [RunEvent.step_abort 1, RunEvent.save_run_data (List.range 1)] :=
  (run_saves_only_at_trajectory_boundary 3 1 (by decide)).1

/-- Helper: the one-step unfolding of `splitOnChar` on a cons cell. -/
theorem splitOnChar_cons (c a : Char) (rest : List Char) :
    splitOnChar c (a :: rest) =
      match splitOnChar c rest with
      | [] => [[]]
      | s :: ss => if a = c then [] :: s :: ss else (a :: s) :: ss := rfl

/-- Helper: a split never returns the empty list of components. -/
theorem splitOnChar_ne_nil (c : Char) : ∀ l : List Char, splitOnChar c l ≠ []
  | [] => by simp [splitOnChar]
  | a :: rest => by
    rw [splitOnChar_cons]
    cases h : splitOnChar c rest with
    | nil => simp
    | cons s ss => by_cases hac : a = c <;> simp [hac]

/-- Helper: splitting at the first separator occurrence peels off the
separator-free head. -/
theorem splitOnChar_append (c : Char) :
    ∀ (l1 l2 : List Char), c ∉ l1 →
      splitOnChar c (l1 ++ c :: l2) = l1 :: splitOnChar c l2
  | [], l2, _ => by
    simp only [List.nil_append]
    rw [splitOnChar_cons]
    cases h : splitOnChar c l2 with
    | nil => exact absurd h (splitOnChar_ne_nil c l2)
    | cons s ss => simp
  | a :: l1, l2, h => by
    have hac : ¬ a = c := fun hh => h (hh ▸ List.mem_cons_self a l1)
    have h1 : c ∉ l1 := fun hh => h (List.mem_cons_of_mem a hh)
    have ih := splitOnChar_append c l1 l2 h1
    simp only [List.cons_append]
    rw [splitOnChar_cons, ih]
    simp [hac]

/-- Helper: a separator-free list splits into the single component itself. -/
theorem splitOnChar_of_not_mem (c : Char) :
    ∀ l : List Char, c ∉ l → splitOnChar c l = [l]
  | [], _ => by simp [splitOnChar]
  | a :: rest, h => by
    have hac : ¬ a = c := fun hh => h (hh ▸ List.mem_cons_self a rest)
    have h1 : c ∉ rest := fun hh => h (List.mem_cons_of_mem a hh)
    unfold splitOnChar
    rw [splitOnChar_of_not_mem c rest h1]
    simp [hac]

/-- Helper: no component of a split contains the separator. -/
theorem splitOnChar_sep_not_mem (c : Char) :
    ∀ (l s : List Char), s ∈ splitOnChar c l → c ∉ s
  | [], s, hs => by
    simp [splitOnChar] at hs
    simp [hs]
  | a :: rest, s, hs => by
    revert hs
    unfold splitOnChar
    cases h : splitOnChar c rest with
    | nil => exact absurd h (splitOnChar_ne_nil c rest)
    | cons s0 ss =>
      by_cases hac : a = c
      · simp only [if_pos hac]
        intro hs
        rcases List.mem_cons.mp hs with hrfl | hmem
        · simp [hrfl]
        · exact splitOnChar_sep_not_mem c rest s (h ▸ hmem)
      · simp only [if_neg hac]
        intro hs
        rcases List.mem_cons.mp hs with hrfl | hmem
        · subst hrfl
          intro hmem2
          rcases List.mem_cons.mp hmem2 with hrfl2 | hmem3
          · exact hac hrfl2.symm
          · exact splitOnChar_sep_not_mem c rest s0
              (h ▸ List.mem_cons_self s0 ss) hmem3
        · exact splitOnChar_sep_not_mem c rest s
            (h ▸ List.mem_cons_of_mem s0 hmem)

/-- Helper: every character of every component comes from the split list. -/
theorem splitOnChar_mem_mem (c : Char) :
    ∀ (l s : List Char), s ∈ splitOnChar c l → ∀ x ∈ s, x ∈ l
  | [], s, hs => by
    simp [splitOnChar] at hs
    simp [hs]
  | a :: rest, s, hs => by
    revert hs
    unfold splitOnChar
    cases h : splitOnChar c rest with
    | nil => exact absurd h (splitOnChar_ne_nil c rest)
    | cons s0 ss =>
      by_cases hac : a = c
      · simp only [if_pos hac]
        intro hs x hx
        rcases List.mem_cons.mp hs with hrfl | hmem
        · subst hrfl
          simp at hx
        · exact List.mem_cons_of_mem a
            (splitOnChar_mem_mem c rest s (h ▸ hmem) x hx)
      · simp only [if_neg hac]
        intro hs x hx
        rcases List.mem_cons.mp hs with hrfl | hmem
        · subst hrfl
          rcases List.mem_cons.mp hx with hrfl2 | hmem3
          · exact hrfl2 ▸ List.mem_cons_self a rest
          · exact List.mem_cons_of_mem a
              (splitOnChar_mem_mem c rest s0
                (h ▸ List.mem_cons_self s0 ss) x hmem3)
        · exact List.mem_cons_of_mem a
            (splitOnChar_mem_mem c rest s
              (h ▸ List.mem_cons_of_mem s0 hmem) x hx)

/-- Helper: `splitOnChar` agrees with the library `List.splitOn`. -/
theorem splitOnChar_eq_splitOn (c : Char) :
    ∀ l : List Char, splitOnChar c l = l.splitOn c
  | [] => rfl
  | a :: rest => by
    have ih := splitOnChar_eq_splitOn c rest
    have hcons : (a :: rest).splitOn c =
        if a == c then [] :: rest.splitOn c
        else (rest.splitOn c).modifyHead (List.cons a) := by
      simp only [List.splitOn, List.splitOnP_cons]
    rw [splitOnChar_cons, ih, hcons]
    cases h : rest.splitOn c with
    | nil =>
      have hne : rest.splitOn c ≠ [] := by
        simp only [List.splitOn]
        exact List.splitOnP_ne_nil _ rest
      exact absurd h hne
    | cons e es => by_cases hac : a = c <;> simp [hac]

/-- Helper: `intercalate` of a single component is that component. -/
theorem intercalate_single (s x : List Char) : List.intercalate s [x] = x := by
  simp [List.intercalate]

/-- Helper: `intercalate` peels its first component off. -/
theorem intercalate_cons_cons (s x y : List Char) (r : List (List Char)) :
    List.intercalate s (x :: y :: r) = x ++ s ++ List.intercalate s (y :: r) := by
  simp [List.intercalate, List.append_assoc]

/-- Helper: `intercalate` with a final extra component appends a separator and
that component. -/
theorem intercalate_concat_sep (c : Char) (b : List Char) :
    ∀ ds : List (List Char), ds ≠ [] →
      List.intercalate [c] (ds ++ [b]) = List.intercalate [c] ds ++ c :: b
  | [], h => absurd rfl h
  | [x], _ => by
    rw [List.cons_append, List.nil_append, intercalate_cons_cons,
      intercalate_single, intercalate_single]
    simp
  | x :: y :: r, _ => by
    have ih := intercalate_concat_sep c b (y :: r) (by simp)
    rw [show ((y :: r) ++ [b] : List (List Char)) = y :: (r ++ [b]) from rfl]
      at ih
    rw [show ((x :: y :: r) ++ [b] : List (List Char)) =
        x :: y :: (r ++ [b]) from rfl,
      intercalate_cons_cons, ih, intercalate_cons_cons]
    simp [List.append_assoc]

/-- Helper: joining a split with the separator recovers the original list. -/
theorem intercalate_splitOnChar (c : Char) (l : List Char) :
    List.intercalate [c] (splitOnChar c l) = l := by
  rw [splitOnChar_eq_splitOn]
  exact List.intercalate_splitOn l c

/-- Helper: splitting at the LAST separator occurrence: everything before it
splits as usual and the separator-free tail is the final component. -/
theorem splitOnChar_concat_sep (c : Char) (a b : List Char) (hb : c ∉ b) :
    splitOnChar c (a ++ c :: b) = splitOnChar c a ++ [b] := by
  have h1 : a ++ c :: b = List.intercalate [c] (splitOnChar c a ++ [b]) := by
    rw [intercalate_concat_sep c b (splitOnChar c a) (splitOnChar_ne_nil c a),
      intercalate_splitOnChar]
  rw [h1, splitOnChar_eq_splitOn, List.splitOn_intercalate]
  · intro l hl
    rcases List.mem_append.mp hl with h2 | h2
    · exact splitOnChar_sep_not_mem c a l h2
    · rw [List.mem_singleton.mp h2]
      exact hb
  · exact List.append_ne_nil_of_right_ne_nil _ (by simp)

/-- Helper: a list containing a character decomposes at the LAST occurrence of
that character. -/
theorem exists_last_sep (c : Char) :
    ∀ l : List Char, c ∈ l → ∃ a b, l = a ++ c :: b ∧ c ∉ b
  | [], h => absurd h (List.not_mem_nil c)
  | x :: l, h => by
    by_cases hc : c ∈ l
    · obtain ⟨a, b, hab, hb⟩ := exists_last_sep c l hc
      exact ⟨x :: a, b, by rw [hab]; rfl, hb⟩
    · have hx : c = x := by
        rcases List.mem_cons.mp h with h1 | h1
        · exact h1
        · exact absurd h1 hc
      exact ⟨[], l, by simp [hx], hc⟩

/-- Helper: a `.pkl` suffix of the renamed path `stem ++ "_1." ++ u` with `u`
dot-free forces `u = "pkl"`. -/
theorem pkl_suffix_eq (t0 u : List Char) (hu : '.' ∉ u)
    (hsf : (['.', 'p', 'k', 'l'] : List Char) <:+
      t0 ++ '_' :: '1' :: '.' :: u) :
    u = ['p', 'k', 'l'] := by
  obtain ⟨p, hp⟩ := hsf
  have hrev : 'l' :: 'k' :: 'p' :: '.' :: p.reverse =
      u.reverse ++ '.' :: '1' :: '_' :: t0.reverse := by
    have h2 := congrArg List.reverse hp
    simpa using h2
  cases hur : u.reverse with
  | nil =>
    rw [hur, List.nil_append] at hrev
    simp only [List.cons.injEq] at hrev
    exact absurd hrev.1 (by decide)
  | cons a1 ur1 =>
    cases ur1 with
    | nil =>
      rw [hur] at hrev
      simp only [List.cons_append, List.nil_append, List.cons.injEq] at hrev
      exact absurd hrev.2.1 (by decide)
    | cons a2 ur2 =>
      cases ur2 with
      | nil =>
        rw [hur] at hrev
        simp only [List.cons_append, List.nil_append, List.cons.injEq] at hrev
        exact absurd hrev.2.2.1 (by decide)
      | cons a3 ur3 =>
        cases ur3 with
        | nil =>
          rw [hur] at hrev
          simp only [List.cons_append, List.nil_append, List.cons.injEq]
            at hrev
          have hu3 : u = [a3, a2, a1] := by
            have h3 := congrArg List.reverse hur
            simpa using h3
          rw [hu3, ← hrev.1, ← hrev.2.1, ← hrev.2.2.1]
        | cons a4 ur4 =>
          rw [hur] at hrev
          simp only [List.cons_append, List.nil_append, List.cons.injEq]
            at hrev
          have hdot : '.' ∈ u := by
            rw [← List.mem_reverse, hur]
            have h4 : a4 = '.' := hrev.2.2.2.1.symm
            rw [h4]
            simp
          exact absurd hdot hu

/-- C10 counterexample: calling `save_data` on the existing multi-dot file
`a.b.pkl` writes to `a_1.b.z` — `_1` is inserted before the FIRST dot and the
trailing `.pkl` component is dropped (then `savez` appends `.z`) — not to
`a.b_1.pkl`, the sibling with `_1` inserted before the extension. -/
theorem save_data_target_first_dot_cx :
    save_data_target ("a.b.pkl".toList) true = some ("a_1.b.z".toList) ∧
    ("a_1.b.z".toList : List Char) ≠ "a.b_1.pkl".toList := by
  constructor
  · rfl
  · decide

/-- Helper: prepending a common left part, a list continuing with an
underscore never equals one continuing with a dot. -/
theorem append_underscore_ne_dot (t0 r1 r2 : List Char) :
    t0 ++ '_' :: r1 ≠ t0 ++ '.' :: r2 := by
  intro h
  have h2 := List.append_cancel_left h
  simp at h2

/-- C10 (amended): for every call to `save_data` with an existing `out_file`
containing a dot (write `out_file = t0 ++ '.' :: t1` with `t0` its dot-free
prefix, directories and slashes arbitrary), the data is written to a path in
which `_1` sits immediately before the FIRST dot — for `.pkl` targets the
extension is then replaced by `.z` — and the write target always differs
from `out_file`, so the existing file is left unchanged.  Whenever the
directory part is well formed (whatever precedes the last slash of `t0` is
nonempty and does not itself end in a slash — true of every call site, with
or without directories), the target is exactly `out_file` with `_1` inserted
before its first dot. -/
theorem save_data_target_ne_existing (t0 t1 : List Char) (h0 : '.' ∉ t0) :
    ∃ w, save_data_target (t0 ++ '.' :: t1) true = some w ∧
      w ≠ t0 ++ '.' :: t1 ∧
      (∃ d rest, w = d ++ '_' :: '1' :: '.' :: rest ∧ '.' ∉ d) ∧
      ((∀ a b, t0 = a ++ '/' :: b → '/' ∉ b →
          a ≠ [] ∧ a.getLast? ≠ some '/') →
        ∃ rest, w = t0 ++ '_' :: '1' :: '.' :: rest) := by
  cases hsp : splitOnChar '.' t1 with
  | nil => exact absurd hsp (splitOnChar_ne_nil '.' t1)
  | cons u us =>
  have hu_mem : u ∈ splitOnChar '.' t1 := hsp ▸ List.mem_cons_self u us
  have hu_dot : '.' ∉ u := splitOnChar_sep_not_mem '.' t1 u hu_mem
  have hsplit : splitOnChar '.' (t0 ++ '.' :: t1) = t0 :: u :: us := by
    rw [splitOnChar_append '.' t0 t1 h0, hsp]
  have ht1 : List.intercalate ['.'] (u :: us) = t1 := by
    rw [← hsp, intercalate_splitOnChar]
  have ht1u : u.length ≤ t1.length := by
    cases us with
    | nil =>
      rw [← ht1, intercalate_single]
    | cons v us2 =>
      rw [← ht1, intercalate_cons_cons]
      simp only [List.length_append, List.length_cons, List.length_nil]
      omega
  have hren : save_data_target (t0 ++ '.' :: t1) true =
      (if (['.', 'p', 'k', 'l']).isSuffixOf (t0 ++ '_' :: '1' :: '.' :: u) then
        (change_extension (t0 ++ '_' :: '1' :: '.' :: u) ['z']).map savez_path
      else if (['.', 'n', 'p', 'y']).isSuffixOf (t0 ++ '_' :: '1' :: '.' :: u)
      then some (np_save_path (t0 ++ '_' :: '1' :: '.' :: u))
      else some (savez_path (t0 ++ '_' :: '1' :: '.' :: u))) := by
    simp only [save_data_target]
    rw [hsplit]
    simp
  rw [hren]
  by_cases hpkl :
      (['.', 'p', 'k', 'l']).isSuffixOf (t0 ++ '_' :: '1' :: '.' :: u) = true
  · rw [if_pos hpkl]
    have hupkl : u = ['p', 'k', 'l'] :=
      pkl_suffix_eq t0 u hu_dot (List.isSuffixOf_iff_suffix.mp hpkl)
    subst hupkl
    have h3t1 : 3 ≤ t1.length := by simpa using ht1u
    by_cases hslash : '/' ∈ t0
    · -- the path has a directory part: decompose `t0` at its last slash
      obtain ⟨a, b, hab, hb⟩ := exists_last_sep '/' t0 hslash
      have hbdot : '.' ∉ b := fun hh =>
        h0 (hab.symm ▸ List.mem_append_right a (List.mem_cons_of_mem '/' hh))
      have hadot : '.' ∉ a := fun hh =>
        h0 (hab.symm ▸ List.mem_append_left _ hh)
      have hbase_noslash : '/' ∉ b ++ '_' :: '1' :: '.' :: ['p', 'k', 'l'] := by
        intro hh
        rcases List.mem_append.mp hh with hA | hB
        · exact hb hA
        · exact absurd hB (by decide)
      have hsplit_slash2 :
          splitOnChar '/' (t0 ++ '_' :: '1' :: '.' :: ['p', 'k', 'l']) =
            splitOnChar '/' a ++ [b ++ '_' :: '1' :: '.' :: ['p', 'k', 'l']] := by
        have hform : t0 ++ '_' :: '1' :: '.' :: ['p', 'k', 'l'] =
            a ++ '/' :: (b ++ '_' :: '1' :: '.' :: ['p', 'k', 'l']) := by
          rw [hab]
          simp [List.append_assoc]
        rw [hform, splitOnChar_concat_sep '/' a _ hbase_noslash]
      have hdot2b : '.' ∉ b ++ ['_', '1'] := by
        intro hh
        rcases List.mem_append.mp hh with hA | hB
        · exact hbdot hA
        · exact absurd hB (by decide)
      have hsplit_dot2 :
          splitOnChar '.' (b ++ '_' :: '1' :: '.' :: ['p', 'k', 'l']) =
            [b ++ ['_', '1'], ['p', 'k', 'l']] := by
        have hform : b ++ '_' :: '1' :: '.' :: ['p', 'k', 'l'] =
            (b ++ ['_', '1']) ++ '.' :: ['p', 'k', 'l'] := by simp
        rw [hform, splitOnChar_append '.' (b ++ ['_', '1']) _ hdot2b,
          splitOnChar_of_not_mem '.' ['p', 'k', 'l'] (by decide)]
      have hchg2 :
          change_extension (t0 ++ '_' :: '1' :: '.' :: ['p', 'k', 'l']) ['z'] =
            some (os_path_join a ((b ++ ['_', '1']) ++ '.' :: ['z'])) := by
        simp only [change_extension, hsplit_slash2, List.getLast?_concat,
          List.dropLast_concat]
        rw [hsplit_dot2, intercalate_splitOnChar]
      have hheadb : ¬ ((b ++ ['_', '1']) ++ '.' :: ['z']).head? = some '/' := by
        cases b with
        | nil => decide
        | cons c0 b2 =>
          simp only [List.cons_append, List.head?_cons, Option.some.injEq]
          intro hh
          exact hb (List.mem_cons.mpr (Or.inl hh.symm))
      rw [hchg2]
      by_cases ha : a = []
      · -- pathological shape `/base.pkl`: os.path.join drops the leading slash
        have hjoin : os_path_join a ((b ++ ['_', '1']) ++ '.' :: ['z']) =
            (b ++ ['_', '1']) ++ '.' :: ['z'] := by
          simp only [os_path_join, if_neg hheadb, if_pos ha]
        have hsuf1 : (['.', 'z'] : List Char) <:+ (b ++ ['_', '1']) ++ '.' :: ['z'] :=
          ⟨b ++ ['_', '1'], rfl⟩
        have hsz : savez_path ((b ++ ['_', '1']) ++ '.' :: ['z']) =
            (b ++ ['_', '1']) ++ '.' :: ['z'] := by
          simp only [savez_path, if_pos (List.isSuffixOf_iff_suffix.mpr hsuf1)]
        have hshape : (b ++ ['_', '1']) ++ '.' :: ['z'] =
            b ++ '_' :: '1' :: '.' :: ['z'] := by
          simp
        refine ⟨(b ++ ['_', '1']) ++ '.' :: ['z'], ?_, ?_,
          ⟨b, ['z'], hshape, hbdot⟩, ?_⟩
        · simp only [Option.map_some', hjoin, hsz]
        · intro heq
          have hlen := congrArg List.length heq
          rw [hab, ha] at hlen
          simp [List.length_append] at hlen
          omega
        · intro hclean
          exact absurd ha (hclean a b hab hb).1
      · by_cases ha2 : a.getLast? = some '/'
        · -- pathological doubled slash before the basename
          have hjoin : os_path_join a ((b ++ ['_', '1']) ++ '.' :: ['z']) =
              a ++ ((b ++ ['_', '1']) ++ '.' :: ['z']) := by
            simp only [os_path_join, if_neg hheadb, if_neg ha, if_pos ha2]
          have hsuf2 : (['.', 'z'] : List Char) <:+
              a ++ ((b ++ ['_', '1']) ++ '.' :: ['z']) := by
            refine ⟨a ++ (b ++ ['_', '1']), ?_⟩
            simp [List.append_assoc]
          have hsz : savez_path (a ++ ((b ++ ['_', '1']) ++ '.' :: ['z'])) =
              a ++ ((b ++ ['_', '1']) ++ '.' :: ['z']) := by
            simp only [savez_path, if_pos (List.isSuffixOf_iff_suffix.mpr hsuf2)]
          have hshape : a ++ ((b ++ ['_', '1']) ++ '.' :: ['z']) =
              (a ++ b) ++ '_' :: '1' :: '.' :: ['z'] := by
            simp [List.append_assoc]
          have hdotab : '.' ∉ a ++ b := by
            intro hh
            rcases List.mem_append.mp hh with hA | hB
            · exact hadot hA
            · exact hbdot hB
          refine ⟨a ++ ((b ++ ['_', '1']) ++ '.' :: ['z']), ?_, ?_,
            ⟨a ++ b, ['z'], hshape, hdotab⟩, ?_⟩
          · simp only [Option.map_some', hjoin, hsz]
          · intro heq
            have hlen := congrArg List.length heq
            rw [hab] at hlen
            simp [List.length_append] at hlen
            omega
          · intro hclean
            exact absurd ha2 (hclean a b hab hb).2
        · -- well-formed directory part: the join reconstructs the path
          have hjoin : os_path_join a ((b ++ ['_', '1']) ++ '.' :: ['z']) =
              a ++ '/' :: ((b ++ ['_', '1']) ++ '.' :: ['z']) := by
            simp only [os_path_join, if_neg hheadb, if_neg ha, if_neg ha2]
          have hsuf3 : (['.', 'z'] : List Char) <:+ t0 ++ '_' :: '1' :: '.' :: ['z'] := by
            refine ⟨t0 ++ ['_', '1'], ?_⟩
            simp
          have hsz2 : savez_path (t0 ++ '_' :: '1' :: '.' :: ['z']) =
              t0 ++ '_' :: '1' :: '.' :: ['z'] := by
            simp only [savez_path, if_pos (List.isSuffixOf_iff_suffix.mpr hsuf3)]
          have hw : a ++ '/' :: ((b ++ ['_', '1']) ++ '.' :: ['z']) =
              t0 ++ '_' :: '1' :: '.' :: ['z'] := by
            rw [hab]
            simp [List.append_assoc]
          refine ⟨t0 ++ '_' :: '1' :: '.' :: ['z'], ?_,
            append_underscore_ne_dot t0 ('1' :: '.' :: ['z']) t1,
            ⟨t0, ['z'], rfl, h0⟩, fun _ => ⟨['z'], rfl⟩⟩
          simp only [Option.map_some', hjoin, hw, hsz2]
    · -- no directory part at all
      have hnoslash : '/' ∉ t0 ++ '_' :: '1' :: '.' :: ['p', 'k', 'l'] := by
        intro hh
        rcases List.mem_append.mp hh with hA | hB
        · exact hslash hA
        · exact absurd hB (by decide)
      have hdot2 : '.' ∉ t0 ++ ['_', '1'] := by
        intro hh
        rcases List.mem_append.mp hh with hA | hB
        · exact h0 hA
        · exact absurd hB (by decide)
      have hassoc : t0 ++ '_' :: '1' :: '.' :: ['p', 'k', 'l'] =
          (t0 ++ ['_', '1']) ++ '.' :: ['p', 'k', 'l'] := by
        simp
      have hsplit_slash :
          splitOnChar '/' (t0 ++ '_' :: '1' :: '.' :: ['p', 'k', 'l']) =
            [t0 ++ '_' :: '1' :: '.' :: ['p', 'k', 'l']] :=
        splitOnChar_of_not_mem _ _ hnoslash
      have hsplit_dot :
          splitOnChar '.' (t0 ++ '_' :: '1' :: '.' :: ['p', 'k', 'l']) =
            [t0 ++ ['_', '1'], ['p', 'k', 'l']] := by
        rw [hassoc, splitOnChar_append '.' (t0 ++ ['_', '1']) _ hdot2,
          splitOnChar_of_not_mem '.' ['p', 'k', 'l'] (by decide)]
      have hhead : ¬ ((t0 ++ ['_', '1']) ++ '.' :: ['z']).head? = some '/' := by
        cases t0 with
        | nil => decide
        | cons a t =>
          simp only [List.cons_append, List.head?_cons, Option.some.injEq]
          intro hh
          exact hslash (List.mem_cons.mpr (Or.inl hh.symm))
      have hchg :
          change_extension (t0 ++ '_' :: '1' :: '.' :: ['p', 'k', 'l']) ['z'] =
            some (t0 ++ '_' :: '1' :: '.' :: ['z']) := by
        have hint : List.intercalate ['/'] ([] : List (List Char)) = [] := rfl
        simp only [change_extension, hsplit_slash]
        simp only [List.getLast?_singleton, List.dropLast_single]
        rw [hsplit_dot]
        simp only [hint, os_path_join, if_neg hhead, if_pos rfl]
        simp [List.append_assoc]
      have hsufz : (['.', 'z'] : List Char) <:+ t0 ++ '_' :: '1' :: '.' :: ['z'] := by
        refine ⟨t0 ++ ['_', '1'], ?_⟩
        simp
      have hsfx : savez_path (t0 ++ '_' :: '1' :: '.' :: ['z']) =
          t0 ++ '_' :: '1' :: '.' :: ['z'] := by
        simp only [savez_path, if_pos (List.isSuffixOf_iff_suffix.mpr hsufz)]
      rw [hchg]
      refine ⟨t0 ++ '_' :: '1' :: '.' :: ['z'], ?_,
        append_underscore_ne_dot t0 ('1' :: '.' :: ['z']) t1,
        ⟨t0, ['z'], rfl, h0⟩, fun _ => ⟨['z'], rfl⟩⟩
      simp [hsfx]
  · rw [if_neg hpkl]
    by_cases hnpy :
        (['.', 'n', 'p', 'y']).isSuffixOf (t0 ++ '_' :: '1' :: '.' :: u) = true
    · rw [if_pos hnpy]
      refine ⟨t0 ++ '_' :: '1' :: '.' :: u, ?_,
        append_underscore_ne_dot t0 _ t1,
        ⟨t0, u, rfl, h0⟩, fun _ => ⟨u, rfl⟩⟩
      simp only [np_save_path, if_pos hnpy]
    · rw [if_neg hnpy]
      by_cases hz : (['.', 'z'] : List Char).isSuffixOf
          (t0 ++ '_' :: '1' :: '.' :: u) = true
      · refine ⟨t0 ++ '_' :: '1' :: '.' :: u, ?_,
          append_underscore_ne_dot t0 _ t1,
          ⟨t0, u, rfl, h0⟩, fun _ => ⟨u, rfl⟩⟩
        simp only [savez_path, if_pos hz]
      · refine ⟨t0 ++ '_' :: '1' :: '.' :: (u ++ ['.', 'z']), ?_,
          append_underscore_ne_dot t0 _ t1,
          ⟨t0, u ++ ['.', 'z'], rfl, h0⟩, fun _ => ⟨u ++ ['.', 'z'], rfl⟩⟩
        simp only [savez_path, if_neg hz]
        simp

/-- Witness for the amended C10 theorem at the concrete existing file
`obs/actions.pkl` — the call-site shape of `save_run_data`, with a directory
separator in the path. -/
theorem save_data_target_ne_existing_witness :
    ∃ w, save_data_target ("obs/actions".toList ++ '.' :: "pkl".toList) true =
        some w ∧
      w ≠ "obs/actions".toList ++ '.' :: "pkl".toList ∧
      (∃ d rest, w = d ++ '_' :: '1' :: '.' :: rest ∧ '.' ∉ d) ∧
      ((∀ a b, "obs/actions".toList = a ++ '/' :: b → '/' ∉ b →
          a ≠ [] ∧ a.getLast? ≠ some '/') →
        ∃ rest, w = "obs/actions".toList ++ '_' :: '1' :: '.' :: rest) :=
  save_data_target_ne_existing ("obs/actions".toList) ("pkl".toList)
    (by decide)

end L2HMC
